import Mathlib

/-
Verification development for the holly-fsm state-machine library
(src/src/index.ts, src/src/types/index.ts).

The embedding is a direct shallow translation of the runtime behavior of
`createMachine` and its inner functions.  State names, action names and
channel names are strings, as in the source.  The metadata value passed to
a transition and the error value thrown by a user TransitionFunction are
type parameters `μ` and `ε`.  A user TransitionFunction
(`(...args) => Promise<string> | string`, which may also throw/reject) is
modelled as `μ → Except ε String`.  Asynchronous sequencing is modelled by
the list of notification events a call publishes, in publication order,
together with an instrumentation event recording the moment the
TransitionFunction is invoked and the value the current-state cell holds
while its result is pending.
-/

set_option autoImplicit false

namespace HollyFsm

universe u

/-- Model of a user TransitionFunction (src/src/types/index.ts `Config`
value type): takes the metadata, returns a successor state name or
throws/rejects with an error of type `ε`. -/
abbrev TransitionFn (μ ε : Type) : Type := μ → Except ε String

/-- Model of one StateDefinition: the action table of one state, an
association list from action name to TransitionFunction, in declaration
order (JS object key order). -/
abbrev StateDef (μ ε : Type) : Type := List (String × TransitionFn μ ε)

/-- Model of a MachineConfig: association list from state name to
StateDefinition, in declaration order. -/
abbrev Config (μ ε : Type) : Type := List (String × StateDef μ ε)

/-- Declared state names of a config, in declaration order
(`Object.keys(config)`). -/
def stateNames {μ ε : Type} (cfg : Config μ ε) : List String :=
  cfg.map Prod.fst

/-- Association-list lookup, modelling JS property access `obj[key]`:
returns the value stored under the key, or `none` when absent. -/
def alookup {β : Type} (k : String) : List (String × β) → Option β
  | [] => none
  | p :: rest => if p.1 = k then some p.2 else alookup k rest

/-- Record assignment `acc[k] = v` on a JS object modelled as an
association list: replaces the value when the key is present (keeping its
position), appends the pair otherwise. -/
def upsert {β : Type} : List (String × β) → String → β → List (String × β)
  | [], k, v => [(k, v)]
  | p :: rest, k, v => if p.1 = k then (k, v) :: rest else p :: upsert rest k v

/-- Observable events published during one `transition` call, in order.
`exitEv` is the machine-wide exit notification `{action, current, meta}`
(src/src/index.ts line 45); `invokeEv` is an instrumentation point marking
the invocation of the TransitionFunction (line 51), with `cell` the value
the current-state cell holds while the result is pending; `enterEv` is the
machine-wide enter notification `{action, current, last, meta}` (line 52);
`stateEv` is the per-state notification on the channel keyed by the new
current state (lines 53-58). -/
inductive Event (μ : Type) where
  | exitEv (action : String) (current : String) (meta : μ)
  | invokeEv (action : String) (cell : String) (meta : μ)
  | enterEv (action : String) (current : String) (last : String) (meta : μ)
  | stateEv (channel : String) (action : String) (current : String) (last : String) (meta : μ)
  deriving DecidableEq

/-- Outcome of one `transition` call. `ok ret` is normal resolution with
`ret` the resolved value (`some` new state, or `none` when the action is
not declared for the current state and the call returns early);
`fnError e` is a throw/rejection of the TransitionFunction, propagated
unchanged; `typeError` is the JS TypeError raised by
`(config[current])[action]` when `current` is not a key of the config. -/
inductive TResult (ε : Type) where
  | ok (ret : Option String)
  | fnError (e : ε)
  | typeError
  deriving DecidableEq

/-- Everything one `transition` call does: the notifications it publishes
in order, its outcome, and the value of the current-state cell after the
call returns. -/
structure TransOut (μ ε : Type) where
  events : List (Event μ)
  result : TResult ε
  final : String
  deriving DecidableEq

/-- Shallow embedding of `transition(action, meta)`
(src/src/index.ts lines 44-60), run with the current-state cell holding
`current`:
1. publish the exit notification with the pre-call current and await it;
2. look up `config[current][action]`; if absent, return early resolving
   to nothing;
3. otherwise record `last`, invoke the TransitionFunction and await it; a
   throw/rejection propagates and the cell keeps its pre-call value;
4. assign the resolved value to the cell;
5. publish the machine-wide enter notification and await it;
6. publish the same payload on the per-state channel keyed by the new
   current and await it;
7. return the new current.
Publishing is modelled by appending the event; handlers are modelled per
the §6 notification-capability contract as running to completion. -/
def transition {μ ε : Type} (cfg : Config μ ε) (current action : String) (meta : μ) :
    TransOut μ ε :=
  let exitE := Event.exitEv action current meta
  match alookup current cfg with
  | none => ⟨[exitE], TResult.typeError, current⟩
  | some sd =>
    match alookup action sd with
    | none => ⟨[exitE], TResult.ok none, current⟩
    | some fn =>
      match fn meta with
      | Except.error e =>
          ⟨[exitE, Event.invokeEv action current meta], TResult.fnError e, current⟩
      | Except.ok next =>
          ⟨[exitE, Event.invokeEv action current meta,
            Event.enterEv action next current meta,
            Event.stateEv next action next current meta],
           TResult.ok (some next), next⟩

/-- Model of a live machine handle: the config it was built from and the
single mutable current-state cell (the closure variable `current`,
src/src/index.ts line 10). -/
structure Machine (μ ε : Type) where
  config : Config μ ε
  current : String

/-- Shallow embedding of `createMachine(config, options)`
(src/src/index.ts lines 4-10): the body only destructures the options and
seeds the current-state cell with `options.initialState`; there is no
runtime validation of any kind. -/
def createMachine {μ ε : Type} (cfg : Config μ ε) (initialState : String) : Machine μ ε :=
  { config := cfg, current := initialState }

/-- Shallow embedding of `getState()` (src/src/index.ts lines 15-17):
synchronously reads the current-state cell. -/
def getState {μ ε : Type} (m : Machine μ ε) : String :=
  m.current

/-- One `transition` call performed on a machine handle: runs the call and
commits the resulting cell value. -/
def machineTransition {μ ε : Type} (m : Machine μ ε) (action : String) (meta : μ) :
    TransOut μ ε × Machine μ ε :=
  let out := transition m.config m.current action meta
  (out, { m with current := out.final })

/-- Value of the current-state cell after a sequence of `transition`
calls, each awaited to completion before the next starts. -/
def runCalls {μ ε : Type} (cfg : Config μ ε) : String → List (String × μ) → String
  | cur, [] => cur
  | cur, (a, m) :: rest => runCalls cfg (transition cfg cur a m).final rest

/-- Insertion into a JS `Set` modelled as a duplicate-free list in
insertion order: `acc.add(a)` keeps the first occurrence. -/
def insertUnique (acc : List String) (a : String) : List String :=
  if a ∈ acc then acc else acc ++ [a]

/-- The distinct action names observed anywhere in the configuration, in
first-occurrence order: the `actionSet` built in `buildActions`
(src/src/index.ts lines 63-68) by reducing `Object.values(config)` and
adding every `Object.keys(curr)` entry to a `Set`. -/
def actionNames {μ ε : Type} (cfg : Config μ ε) : List String :=
  cfg.foldl (fun acc p => p.2.foldl (fun acc2 q => insertUnique acc2 q.1) acc) []

/-- Shallow embedding of `buildActions(config, transition)`
(src/src/index.ts lines 62-76): one record member per distinct action
name, each member the closure `doTransition(meta) = transition(action,
meta)` with its own fixed action name; built by record assignment over
`Array.from(actionSet)`. The transition engine is passed in as a
parameter, exactly as in the source. -/
def buildActions {μ ε : Type} (cfg : Config μ ε) (trans : String → μ → TransOut μ ε) :
    List (String × (μ → TransOut μ ε)) :=
  (actionNames cfg).foldl (fun acc a => upsert acc a (fun meta => trans a meta)) []

/-- Member name derived from a state name by `buildHandlers`
(src/src/index.ts lines 83-88): the first character upper-cased, the rest
kept, the whole prefixed with `on` (state `idle` gives `onIdle`). -/
def onMemberName (s : String) : String :=
  match s.data with
  | [] => "on"
  | c :: cs => "on" ++ String.mk (c.toUpper :: cs)

/-- Shallow embedding of the record built by `buildHandlers(config,
emitter)` (src/src/index.ts lines 78-100): one record member per
enumerated state key, under the derived `on`-prefixed member name, built
by record assignment (a later state key overwrites the member of an
earlier one when both derive the same member name). The stored value is
the state name captured by the subscription closure of the member: the closure
registers the handler on the channel keyed by exactly that state name and
returns an unsubscribe closure for it (see `Emitter.on` / `Emitter.off`
below). -/
def buildHandlers {μ ε : Type} (cfg : Config μ ε) : List (String × String) :=
  cfg.foldl (fun acc p => upsert acc (onMemberName p.1) p.1) []

/-- Modelled from the spec: the notification capability (the external
`holly-emitter` package, not part of this repository) per the §6
contract. Registrations are kept per channel in registration order; a
handler instance is identified by a natural number. -/
structure Emitter where
  regs : List (String × Nat)
  deriving DecidableEq

namespace Emitter

/-- Modelled from the spec: `emitter.on(channel, handler)` appends the
registration. -/
def onSub (em : Emitter) (ch : String) (h : Nat) : Emitter :=
  ⟨em.regs ++ [(ch, h)]⟩

/-- Modelled from the spec: `emitter.off(channel, handler)` removes
exactly that handler from that channel, leaving every other registration
in place. -/
def offSub (em : Emitter) (ch : String) (h : Nat) : Emitter :=
  ⟨em.regs.filter (fun p => !(p.1 == ch && p.2 == h))⟩

/-- Modelled from the spec: publishing on a channel delivers the payload
to exactly the handlers currently registered on that channel, in
registration order; this lists those handlers. -/
def deliveries (em : Emitter) (ch : String) : List Nat :=
  (em.regs.filter (fun p => p.1 == ch)).map Prod.snd

end Emitter

/-- Subscribing through the member `buildHandlers` built for state `s`:
the closure runs `emitter.on(s, handler)` (src/src/index.ts line 92). -/
def subscribeState (s : String) (em : Emitter) (h : Nat) : Emitter :=
  em.onSub s h

/-- The unsubscribe closure returned by that member: runs
`emitter.off(s, handler)` (src/src/index.ts line 94). -/
def unsubscribeState (s : String) (em : Emitter) (h : Nat) : Emitter :=
  em.offSub s h

/-- Kind of value stored under one member name of the returned handle
(src/src/index.ts lines 102-109): an action dispatch callable, a
per-state subscription function, or one of the four built-ins. -/
inductive HandleMember where
  | action (name : String)
  | stateSub (state : String)
  | enterBuiltin
  | exitBuiltin
  | transitionBuiltin
  | getStateBuiltin
  deriving DecidableEq

/-- Shallow embedding of the handle returned by `createMachine`
(src/src/index.ts lines 102-109): the object literal
`{...actions, ...handlers, onEnter, onExit, transition, getState}`,
modelled as record assignments in spread order, so later entries
overwrite earlier ones of the same name. -/
def handleMembers {μ ε : Type} (cfg : Config μ ε) : List (String × HandleMember) :=
  let withActions :=
    (actionNames cfg).foldl (fun acc a => upsert acc a (HandleMember.action a)) []
  let withHandlers :=
    cfg.foldl (fun acc p => upsert acc (onMemberName p.1) (HandleMember.stateSub p.1)) withActions
  upsert (upsert (upsert (upsert withHandlers
    "onEnter" HandleMember.enterBuiltin)
    "onExit" HandleMember.exitBuiltin)
    "transition" HandleMember.transitionBuiltin)
    "getState" HandleMember.getStateBuiltin

/-! Helper lemmas about the association-list primitives. -/

theorem alookup_upsert {β : Type} (l : List (String × β)) (k : String) (v : β) (k2 : String) :
    alookup k2 (upsert l k v) = if k = k2 then some v else alookup k2 l := by
  induction l with
  | nil => simp [upsert, alookup]
  | cons p rest ih =>
    by_cases h : p.1 = k
    · by_cases h2 : k = k2 <;> simp [upsert, alookup, h, h2]
    · by_cases h2 : k = k2
      · subst h2
        simp [upsert, alookup, h, ih]
      · by_cases h3 : p.1 = k2 <;> simp [upsert, alookup, h, h2, h3, ih, Ne.symm h2]

theorem alookup_mem {β : Type} {k : String} {v : β} :
    ∀ {l : List (String × β)}, alookup k l = some v → (k, v) ∈ l := by
  intro l
  induction l with
  | nil => intro h; simp [alookup] at h
  | cons p rest ih =>
    intro h
    by_cases hp : p.1 = k
    · simp [alookup, hp] at h
      subst h
      simp [← hp]
    · simp [alookup, hp] at h
      exact List.mem_cons_of_mem _ (ih h)

/-! Concrete example configurations used by witnesses and counterexamples. -/

/-- Scenario A light-switch config from the spec, §8. -/
def lightCfg : Config Nat String :=
  [("off", [("switchOn", fun _ => Except.ok "on")]),
   ("on", [("switchOff", fun _ => Except.ok "off")])]

/-- Config with a single terminal state and no actions. -/
def soloCfg : Config Nat String :=
  [("idle", [])]

/-- Config whose one TransitionFunction always throws. -/
def throwCfg : Config Nat String :=
  [("idle", [("go", fun _ => Except.error "boom")])]

/-- Config whose one TransitionFunction resolves to a name outside the
declared state set. -/
def strayCfg : Config Nat String :=
  [("idle", [("go", fun _ => Except.ok "limbo")])]

/-- Scenario B config from the spec, §8: `start` resolves to `active`. -/
def pendCfg : Config Nat String :=
  [("idle", [("start", fun _ => Except.ok "active")]),
   ("active", [])]

/-- Config with two state names that differ only in the capitalization of
the first character. -/
def capCfg : Config Nat String :=
  [("idle", []), ("Idle", [])]

/-- Config declaring an action named `transition`. -/
def shadowCfg : Config Nat String :=
  [("idle", [("transition", fun _ => Except.ok "idle")])]

/-! Claim C1. -/

/-- C1 counterexample: the claim says that `createMachine` fails at
construction whenever `options.initialState` is not a key of the config
and that no MachineHandle is produced.  In the code `createMachine` only
destructures the options and seeds the cell, so for the concrete config
`{idle: {}}` and initial state `"bogus"` a handle is produced anyway and
its `getState()` returns `"bogus"`, a non-key: no configuration error is
raised at runtime. -/
theorem c1_counterexample :
    getState (createMachine soloCfg "bogus") = "bogus"
    ∧ "bogus" ∉ stateNames soloCfg :=
  ⟨rfl, by decide⟩

/-- C1 amended: `createMachine` performs no runtime validation of
`initialState`; even when the supplied initial state is not a key of the
config, construction succeeds and produces a handle whose `getState()`
returns that very value.  The keyedness constraint lives only in the
static type of `options.initialState` (`keyof T & string`), checked at
compile time, not at construction time at runtime. -/
theorem c1_no_runtime_check {μ ε : Type} (cfg : Config μ ε) (s : String)
    (hnot : s ∉ stateNames cfg) :
    getState (createMachine cfg s) = s :=
  rfl

/-- C1 witness: the amended theorem applied at the concrete config
`{idle: {}}` and the non-key initial state `"missing"`. -/
theorem c1_no_runtime_check_witness :
    getState (createMachine soloCfg "missing") = "missing" :=
  c1_no_runtime_check soloCfg "missing" (by decide)

/-! Claim C2. -/

/-- C2: for a `transition(action, meta)` call whose current state declares
the action and whose TransitionFunction resolves, the call publishes, in
this exact order: the machine-wide exit notification `{action, current,
meta}` with the pre-call current; then (after recording `last`) the
TransitionFunction invocation; then, with the cell assigned the resolved
value, the machine-wide enter notification `{action, current, last,
meta}` whose `last` is the pre-call state; then the same payload on the
per-state channel keyed by the new current; and the call returns the new
current. -/
theorem c2_transition_protocol {μ ε : Type} (cfg : Config μ ε)
    (cur a : String) (m : μ) (sd : StateDef μ ε) (fn : TransitionFn μ ε) (next : String)
    (hs : alookup cur cfg = some sd) (ha : alookup a sd = some fn)
    (hm : fn m = Except.ok next) :
    transition cfg cur a m =
      ⟨[Event.exitEv a cur m,
        Event.invokeEv a cur m,
        Event.enterEv a next cur m,
        Event.stateEv next a next cur m],
       TResult.ok (some next), next⟩ := by
  simp [transition, hs, ha, hm]

/-- C2 witness: the protocol evaluated on the Scenario A config from state
`off` with action `switchOn`. -/
theorem c2_transition_protocol_witness :
    transition lightCfg "off" "switchOn" 0 =
      ⟨[Event.exitEv "switchOn" "off" 0,
        Event.invokeEv "switchOn" "off" 0,
        Event.enterEv "switchOn" "on" "off" 0,
        Event.stateEv "on" "switchOn" "on" "off" 0],
       TResult.ok (some "on"), "on"⟩ :=
  c2_transition_protocol lightCfg "off" "switchOn" 0
    [("switchOn", fun _ => Except.ok "on")] (fun _ => Except.ok "on") "on" rfl rfl rfl

/-! Claim C3. -/

/-- C3: when the TransitionFunction for the declared action throws or
rejects, the error value propagates unchanged to the caller, the
current-state cell keeps its pre-call value (no commit), and neither the
machine-wide enter notification nor the per-state notification is
published: the call publishes exactly the exit notification before the
failing invocation. -/
theorem c3_fn_failure {μ ε : Type} (cfg : Config μ ε)
    (cur a : String) (m : μ) (sd : StateDef μ ε) (fn : TransitionFn μ ε) (e : ε)
    (hs : alookup cur cfg = some sd) (ha : alookup a sd = some fn)
    (hm : fn m = Except.error e) :
    transition cfg cur a m =
      ⟨[Event.exitEv a cur m, Event.invokeEv a cur m],
       TResult.fnError e, cur⟩ := by
  simp [transition, hs, ha, hm]

/-- C3 witness: a TransitionFunction that always throws `"boom"`: the
error surfaces, the cell stays at `idle`, and no enter or per-state event
appears. -/
theorem c3_fn_failure_witness :
    transition throwCfg "idle" "go" 0 =
      ⟨[Event.exitEv "go" "idle" 0, Event.invokeEv "go" "idle" 0],
       TResult.fnError "boom", "idle"⟩ :=
  c3_fn_failure throwCfg "idle" "go" 0
    [("go", fun _ => Except.error "boom")] (fun _ => Except.error "boom") "boom" rfl rfl rfl

/-! Claim C4. -/

/-- C4: when the action is absent from the action table of the current state,
the call resolves to nothing, the cell keeps its value, no enter or
per-state notification is published, and exactly one exit notification is
still published for the call. -/
theorem c4_unsupported_action {μ ε : Type} (cfg : Config μ ε)
    (cur a : String) (m : μ) (sd : StateDef μ ε)
    (hs : alookup cur cfg = some sd) (ha : alookup a sd = none) :
    transition cfg cur a m =
      ⟨[Event.exitEv a cur m], TResult.ok none, cur⟩ := by
  simp [transition, hs, ha]

/-- C4 witness: Scenario C from the spec, §8: calling `switchOff` while
the Scenario A machine is in state `off`. -/
theorem c4_unsupported_action_witness :
    transition lightCfg "off" "switchOff" 0 =
      ⟨[Event.exitEv "switchOff" "off" 0], TResult.ok none, "off"⟩ :=
  c4_unsupported_action lightCfg "off" "switchOff" 0
    [("switchOn", fun _ => Except.ok "on")] rfl rfl

/-! Claim C5. -/

/-- C5 counterexample: the claim says the current-state cell holds a value
in the key set of the config at every observable instant.  The concrete
config `{idle: {go: () -> "limbo"}}` has a TransitionFunction resolving to
`"limbo"`, not a key; after the completed call the cell holds `"limbo"`,
outside the declared state set (the §9 open question of the spec). -/
theorem c5_counterexample :
    (transition strayCfg "idle" "go" 0).final = "limbo"
    ∧ "limbo" ∉ stateNames strayCfg :=
  ⟨rfl, by decide⟩

/-- Closure hypothesis for the amended C5: every TransitionFunction of the
config resolves, when it resolves, to a declared state name. -/
def resultsClosed {μ ε : Type} (cfg : Config μ ε) : Prop :=
  ∀ p ∈ cfg, ∀ q ∈ p.2, ∀ (m : μ) (t : String),
    q.2 m = Except.ok t → t ∈ stateNames cfg

theorem transition_final_mem {μ ε : Type} (cfg : Config μ ε)
    (cur a : String) (m : μ)
    (hclosed : resultsClosed cfg) (hcur : cur ∈ stateNames cfg) :
    (transition cfg cur a m).final ∈ stateNames cfg := by
  cases hs : alookup cur cfg with
  | none => simpa [transition, hs] using hcur
  | some sd =>
    cases ha : alookup a sd with
    | none => simpa [transition, hs, ha] using hcur
    | some fn =>
      cases hm : fn m with
      | error e => simpa [transition, hs, ha, hm] using hcur
      | ok next =>
        simp only [transition, hs, ha, hm]
        exact hclosed (cur, sd) (alookup_mem hs) (a, fn) (alookup_mem ha) m next hm

/-- C5 amended: the invariant holds under the two conditions the code
actually needs: the initial state is a key of the config, and every
TransitionFunction result is a key of the config.  Then after
construction and after every completed or failed `transition` call in any
sequence, the current-state cell holds a declared state name.  Without
the closure condition a TransitionFunction may resolve to any string and
the cell is assigned that value (see the counterexample). -/
theorem c5_state_set_invariant {μ ε : Type} (cfg : Config μ ε) (s0 : String)
    (calls : List (String × μ))
    (hclosed : resultsClosed cfg) (h0 : s0 ∈ stateNames cfg) :
    runCalls cfg (getState (createMachine cfg s0)) calls ∈ stateNames cfg := by
  show runCalls cfg s0 calls ∈ stateNames cfg
  induction calls generalizing s0 with
  | nil => simpa [runCalls] using h0
  | cons c rest ih =>
    cases c with
    | mk a m =>
      simp only [runCalls]
      exact ih _ (transition_final_mem cfg s0 a m hclosed h0)

/-- C5 witness: the amended invariant evaluated on the config
`{idle: {}}` with a call naming an undeclared action. -/
theorem c5_state_set_invariant_witness :
    runCalls soloCfg (getState (createMachine soloCfg "idle")) [("go", 0)]
      ∈ stateNames soloCfg :=
  c5_state_set_invariant soloCfg "idle" [("go", 0)]
    (by
      intro p hp q hq m t hmt
      simp [soloCfg] at hp
      subst hp
      simp at hq)
    (by decide)

/-! Claim C6. -/

/-- C6: `getState` reads the cell synchronously; right after construction
it returns the supplied initial state, and during a transition whose
TransitionFunction is still pending the cell still holds the pre-call
state (the exit event and the invocation instrumentation event both carry
the pre-call value), changing only once the result settles: the final
cell value is the resolved state. -/
theorem c6_getState_timing {μ ε : Type} (cfg : Config μ ε)
    (s0 cur a : String) (m : μ) (sd : StateDef μ ε) (fn : TransitionFn μ ε) (next : String)
    (hs : alookup cur cfg = some sd) (ha : alookup a sd = some fn)
    (hm : fn m = Except.ok next) :
    getState (createMachine cfg s0) = s0
    ∧ (transition cfg cur a m).events.take 2 =
        [Event.exitEv a cur m, Event.invokeEv a cur m]
    ∧ (transition cfg cur a m).final = next := by
  refine ⟨rfl, ?_, ?_⟩ <;> simp [transition, hs, ha, hm]

/-- C6 witness: Scenario B from the spec, §8, on the config
`{idle: {start: () -> "active"}, active: {}}`. -/
theorem c6_getState_timing_witness :
    getState (createMachine pendCfg "idle") = "idle"
    ∧ (transition pendCfg "idle" "start" 0).events.take 2 =
        [Event.exitEv "start" "idle" 0, Event.invokeEv "start" "idle" 0]
    ∧ (transition pendCfg "idle" "start" 0).final = "active" :=
  c6_getState_timing pendCfg "idle" "idle" "start" 0
    [("start", fun _ => Except.ok "active")] (fun _ => Except.ok "active") "active"
    rfl rfl rfl

/-! Machinery for the action-dispatch builder (claim C7). -/

theorem mem_insertUnique (acc : List String) (a b : String) :
    b ∈ insertUnique acc a ↔ b ∈ acc ∨ b = a := by
  unfold insertUnique
  split
  · rename_i h
    constructor
    · exact Or.inl
    · rintro (hb | rfl)
      · exact hb
      · exact h
  · simp [List.mem_append]

theorem nodup_insertUnique (acc : List String) (a : String) (h : acc.Nodup) :
    (insertUnique acc a).Nodup := by
  unfold insertUnique
  split
  · exact h
  · rename_i hna
    simp [List.nodup_append, h, hna]

theorem mem_foldl_insertUnique {γ : Type} (l : List (String × γ)) (b : String) :
    ∀ acc : List String,
      b ∈ l.foldl (fun acc2 q => insertUnique acc2 q.1) acc ↔
        b ∈ acc ∨ ∃ g, (b, g) ∈ l := by
  induction l with
  | nil => simp
  | cons q rest ih =>
    intro acc
    rw [List.foldl_cons, ih, mem_insertUnique]
    constructor
    · rintro ((hb | rfl) | ⟨g, hg⟩)
      · exact Or.inl hb
      · exact Or.inr ⟨q.2, by simp⟩
      · exact Or.inr ⟨g, List.mem_cons_of_mem _ hg⟩
    · rintro (hb | ⟨g, hg⟩)
      · exact Or.inl (Or.inl hb)
      · rcases List.mem_cons.1 hg with heq | htl
        · exact Or.inl (Or.inr (congrArg Prod.fst heq))
        · exact Or.inr ⟨g, htl⟩

theorem nodup_foldl_insertUnique {γ : Type} (l : List (String × γ)) :
    ∀ acc : List String, acc.Nodup →
      (l.foldl (fun acc2 q => insertUnique acc2 q.1) acc).Nodup := by
  induction l with
  | nil => intro acc h; simpa using h
  | cons q rest ih =>
    intro acc h
    rw [List.foldl_cons]
    exact ih _ (nodup_insertUnique _ _ h)

theorem mem_actionNamesAux {μ ε : Type} (cfg : Config μ ε) (b : String) :
    ∀ acc : List String,
      b ∈ cfg.foldl (fun acc p => p.2.foldl (fun acc2 q => insertUnique acc2 q.1) acc) acc ↔
        b ∈ acc ∨ ∃ s sd, (s, sd) ∈ cfg ∧ ∃ g, (b, g) ∈ sd := by
  induction cfg with
  | nil => simp
  | cons p rest ih =>
    intro acc
    rw [List.foldl_cons, ih, mem_foldl_insertUnique]
    constructor
    · rintro ((hb | ⟨g, hg⟩) | ⟨s, sd, hsd, g, hg⟩)
      · exact Or.inl hb
      · exact Or.inr ⟨p.1, p.2, by simp, g, hg⟩
      · exact Or.inr ⟨s, sd, List.mem_cons_of_mem _ hsd, g, hg⟩
    · rintro (hb | ⟨s, sd, hsd, g, hg⟩)
      · exact Or.inl (Or.inl hb)
      · rcases List.mem_cons.1 hsd with heq | htl
        · refine Or.inl (Or.inr ⟨g, ?_⟩)
          rw [show p.2 = sd from congrArg Prod.snd heq.symm]
          exact hg
        · exact Or.inr ⟨s, sd, htl, g, hg⟩

theorem mem_actionNames {μ ε : Type} (cfg : Config μ ε) (b : String) :
    b ∈ actionNames cfg ↔ ∃ s sd, (s, sd) ∈ cfg ∧ ∃ g, (b, g) ∈ sd := by
  unfold actionNames
  rw [mem_actionNamesAux]
  simp

theorem nodup_actionNamesAux {μ ε : Type} (cfg : Config μ ε) :
    ∀ acc : List String, acc.Nodup →
      (cfg.foldl (fun acc p => p.2.foldl (fun acc2 q => insertUnique acc2 q.1) acc) acc).Nodup := by
  induction cfg with
  | nil => intro acc h; simpa using h
  | cons p rest ih =>
    intro acc h
    rw [List.foldl_cons]
    exact ih _ (nodup_foldl_insertUnique _ _ h)

theorem nodup_actionNames {μ ε : Type} (cfg : Config μ ε) :
    (actionNames cfg).Nodup :=
  nodup_actionNamesAux cfg [] List.nodup_nil

theorem upsert_of_not_mem {β : Type} :
    ∀ (l : List (String × β)) (k : String) (v : β), k ∉ l.map Prod.fst →
      upsert l k v = l ++ [(k, v)] := by
  intro l
  induction l with
  | nil => intro k v _; rfl
  | cons p rest ih =>
    intro k v h
    simp only [List.map_cons, List.mem_cons] at h
    push_neg at h
    simp [upsert, Ne.symm h.1, ih k v h.2]

theorem foldl_upsert_eq_append {β γ : Type} (g : γ → String) (f : γ → β) :
    ∀ (xs : List γ) (acc : List (String × β)),
      (∀ x ∈ xs, g x ∉ acc.map Prod.fst) → (xs.map g).Nodup →
      xs.foldl (fun a x => upsert a (g x) (f x)) acc =
        acc ++ xs.map (fun x => (g x, f x)) := by
  intro xs
  induction xs with
  | nil => intro acc _ _; simp
  | cons x rest ih =>
    intro acc hfresh hnd
    rw [List.map_cons, List.nodup_cons] at hnd
    rw [List.foldl_cons, upsert_of_not_mem _ _ _ (hfresh x (by simp))]
    rw [ih (acc ++ [(g x, f x)]) ?fresh hnd.2]
    · simp
    case fresh =>
      intro y hy
      simp only [List.map_append, List.mem_append, List.map_cons, List.map_nil,
        List.mem_singleton]
      push_neg
      refine ⟨hfresh y (List.mem_cons_of_mem _ hy), ?_⟩
      intro heq
      exact hnd.1 (heq ▸ List.mem_map_of_mem g hy)

theorem buildActions_eq_map {μ ε : Type} (cfg : Config μ ε)
    (tr : String → μ → TransOut μ ε) :
    buildActions cfg tr = (actionNames cfg).map (fun a => (a, fun m => tr a m)) := by
  unfold buildActions
  have h := foldl_upsert_eq_append (fun a : String => a)
    (fun a => (fun m => tr a m)) (actionNames cfg) [] (by simp)
    (by simpa using nodup_actionNames cfg)
  simpa using h

theorem alookup_map_keyed {β : Type} (f : String → β) :
    ∀ (names : List String) (a : String) (g : β),
      alookup a (names.map (fun x => (x, f x))) = some g → g = f a := by
  intro names
  induction names with
  | nil => intro a g h; simp [alookup] at h
  | cons x rest ih =>
    intro a g h
    by_cases hx : x = a
    · subst hx
      simp [alookup] at h
      exact h.symm
    · simp [alookup, hx] at h
      exact ih a g h

/-! Claim C7. -/

/-- C7: the handle exposes exactly one dispatch callable per distinct
action name appearing in the action table of some state of the config (no
duplicates, and a name appears among the members precisely when some
state declares it), and each callable forwards its metadata argument to
the transition engine with its own fixed action name, so calling it is
calling `transition(action, meta)`. -/
theorem c7_action_callables {μ ε : Type} (cfg : Config μ ε)
    (tr : String → μ → TransOut μ ε) :
    ((buildActions cfg tr).map Prod.fst).Nodup
    ∧ (∀ a, a ∈ (buildActions cfg tr).map Prod.fst ↔
        ∃ s sd, (s, sd) ∈ cfg ∧ ∃ g, (a, g) ∈ sd)
    ∧ (∀ a g, alookup a (buildActions cfg tr) = some g → ∀ m, g m = tr a m) := by
  have hbm := buildActions_eq_map cfg tr
  have hkeys : ((actionNames cfg).map (fun a => (a, fun m => tr a m))).map Prod.fst =
      actionNames cfg := by
    rw [List.map_map]
    have hcomp : (Prod.fst ∘ fun a : String =>
        ((a, fun m => tr a m) : String × (μ → TransOut μ ε))) = fun a => a := by
      funext x
      rfl
    rw [hcomp]
    exact List.map_id' _
  refine ⟨?_, ?_, ?_⟩
  · rw [hbm, hkeys]
    exact nodup_actionNames cfg
  · intro a
    rw [hbm, hkeys]
    exact mem_actionNames cfg a
  · intro a g h m
    rw [hbm] at h
    rw [alookup_map_keyed (fun a => (fun m => tr a m)) (actionNames cfg) a g h]

/-- Transition engine fixed to the Scenario A config in state `off`, as
passed to the dispatch builder. -/
def lightDispatch : String → Nat → TransOut Nat String :=
  fun a m => transition lightCfg "off" a m

/-- C7 witness: on the Scenario A config, `switchOn` is among the
callables and its callable forwards to the transition engine. -/
theorem c7_action_callables_witness :
    ("switchOn" ∈ (buildActions lightCfg lightDispatch).map Prod.fst)
    ∧ (∀ g, alookup "switchOn" (buildActions lightCfg lightDispatch) = some g →
        ∀ m, g m = transition lightCfg "off" "switchOn" m) := by
  have H := c7_action_callables lightCfg lightDispatch
  refine ⟨?_, fun g hg m => H.2.2 "switchOn" g hg m⟩
  exact (H.2.1 "switchOn").mpr
    ⟨"off", [("switchOn", fun _ => Except.ok "on")], by simp [lightCfg],
     fun _ => Except.ok "on", by simp⟩

/-! Machinery for the per-state notifier builder (claims C8 and C10). -/

theorem keys_upsert {β : Type} :
    ∀ (l : List (String × β)) (k : String) (v : β),
      (upsert l k v).map Prod.fst =
        if k ∈ l.map Prod.fst then l.map Prod.fst else l.map Prod.fst ++ [k] := by
  intro l
  induction l with
  | nil => intro k v; simp [upsert]
  | cons p rest ih =>
    intro k v
    by_cases h : p.1 = k
    · simp [upsert, h]
    · by_cases h2 : k ∈ rest.map Prod.fst <;>
        simp [upsert, h, h2, ih, Ne.symm h]

theorem nodup_keys_upsert {β : Type} (l : List (String × β)) (k : String) (v : β)
    (h : (l.map Prod.fst).Nodup) :
    ((upsert l k v).map Prod.fst).Nodup := by
  rw [keys_upsert]
  split
  · exact h
  · rename_i hk
    simp [List.nodup_append, h, hk]

theorem nodup_keys_foldl_upsert {β γ : Type} (g : γ → String) (f : γ → β) :
    ∀ (xs : List γ) (acc : List (String × β)), (acc.map Prod.fst).Nodup →
      ((xs.foldl (fun a x => upsert a (g x) (f x)) acc).map Prod.fst).Nodup := by
  intro xs
  induction xs with
  | nil => intro acc h; simpa using h
  | cons x rest ih =>
    intro acc h
    rw [List.foldl_cons]
    exact ih _ (nodup_keys_upsert _ _ _ h)

theorem nodup_keys_buildHandlers {μ ε : Type} (cfg : Config μ ε) :
    ((buildHandlers cfg).map Prod.fst).Nodup := by
  unfold buildHandlers
  exact nodup_keys_foldl_upsert (fun p => onMemberName p.1) (fun p => p.1) cfg []
    (by simp)

theorem alookup_buildHandlers {μ ε : Type} (cfg : Config μ ε) (k : String) :
    alookup k (buildHandlers cfg) =
      ((stateNames cfg).filter (fun s => onMemberName s == k)).getLast? := by
  unfold buildHandlers
  induction cfg using List.reverseRecOn with
  | nil => simp [stateNames, alookup]
  | append_singleton l p ih =>
    rw [List.foldl_append, List.foldl_cons, List.foldl_nil, alookup_upsert]
    by_cases h : onMemberName p.1 = k
    · rw [if_pos h]
      have : (stateNames (l ++ [p])).filter (fun s => onMemberName s == k) =
          ((stateNames l).filter (fun s => onMemberName s == k)) ++ [p.1] := by
        simp [stateNames, List.filter_append, h]
      rw [this, List.getLast?_concat]
    · rw [if_neg h, ih]
      have : (stateNames (l ++ [p])).filter (fun s => onMemberName s == k) =
          (stateNames l).filter (fun s => onMemberName s == k) := by
        simp [stateNames, List.filter_append, h]
      rw [this]

theorem filter_memberName_eq_single (names : List String) (s : String)
    (hinj : (names.map onMemberName).Nodup) (hmem : s ∈ names) :
    names.filter (fun x => onMemberName x == onMemberName s) = [s] := by
  induction names with
  | nil => cases hmem
  | cons x rest ih =>
    rw [List.map_cons, List.nodup_cons] at hinj
    rcases List.mem_cons.1 hmem with rfl | hmem2
    · have hrest : rest.filter (fun y => onMemberName y == onMemberName s) = [] := by
        rw [List.filter_eq_nil_iff]
        intro y hy hbeq
        have heq : onMemberName y = onMemberName s := by simpa using hbeq
        exact hinj.1 (heq ▸ List.mem_map_of_mem onMemberName hy)
      simp [List.filter_cons, hrest]
    · have hne : onMemberName x ≠ onMemberName s := by
        intro heq
        exact hinj.1 (heq ▸ List.mem_map_of_mem onMemberName hmem2)
      simp only [List.filter_cons]
      rw [if_neg (by simpa using hne)]
      exact ih hinj.2 hmem2

theorem buildHandlers_eq_map {μ ε : Type} (cfg : Config μ ε)
    (hinj : ((stateNames cfg).map onMemberName).Nodup) :
    buildHandlers cfg = cfg.map (fun p => (onMemberName p.1, p.1)) := by
  unfold buildHandlers
  have hnd : (cfg.map fun p => onMemberName p.1).Nodup := by
    have : (stateNames cfg).map onMemberName = cfg.map fun p => onMemberName p.1 := by
      rw [stateNames, List.map_map]
      rfl
    rw [← this]
    exact hinj
  have h := foldl_upsert_eq_append (fun p : String × StateDef μ ε => onMemberName p.1)
    (fun p => p.1) cfg [] (by simp) hnd
  simpa using h

/-! Claim C8. -/

/-- C8 counterexample: the claim says the handle exposes exactly one
subscription entry point per declared StateName.  For the config with the
two states `idle` and `Idle`, both derive the member name `onIdle`; the
builder produces a single member, wired to the later state `Idle`, so the
two declared states share one entry point and `idle` has none of its
own. -/
theorem c8_counterexample :
    (stateNames capCfg).length = 2
    ∧ ((buildHandlers capCfg).map Prod.fst).length = 1
    ∧ alookup "onIdle" (buildHandlers capCfg) = some "Idle" := by
  refine ⟨rfl, rfl, rfl⟩

/-- C8 amended: for every config in which no two declared state names
derive the same `on`-prefixed member name, the builder exposes exactly
one subscription entry point per declared StateName, named by
capitalizing the first character and prefixing `on`; each entry point is
wired to the channel keyed by exactly its own state name; subscribing a
handler registers it on that channel, and the returned unsubscribe
removes exactly that handler, after which it receives no further
notifications while every other registration is untouched. -/
theorem c8_per_state_subscriptions {μ ε : Type} (cfg : Config μ ε)
    (hinj : ((stateNames cfg).map onMemberName).Nodup) :
    (buildHandlers cfg).map Prod.fst = (stateNames cfg).map onMemberName
    ∧ (∀ s, s ∈ stateNames cfg →
        alookup (onMemberName s) (buildHandlers cfg) = some s)
    ∧ (∀ (em : Emitter) (s : String) (h : Nat),
        Emitter.deliveries (subscribeState s em h) s = Emitter.deliveries em s ++ [h]
        ∧ h ∉ Emitter.deliveries (unsubscribeState s (subscribeState s em h) h) s
        ∧ (∀ ch h2, h2 ≠ h →
            (h2 ∈ Emitter.deliveries (unsubscribeState s (subscribeState s em h) h) ch ↔
             h2 ∈ Emitter.deliveries em ch))) := by
  refine ⟨?_, ?_, ?_⟩
  · rw [buildHandlers_eq_map cfg hinj, List.map_map, stateNames, List.map_map]
    rfl
  · intro s hs
    rw [alookup_buildHandlers, filter_memberName_eq_single (stateNames cfg) s hinj hs]
    rfl
  · intro em s h
    refine ⟨?_, ?_, ?_⟩
    · simp [subscribeState, Emitter.onSub, Emitter.deliveries, List.filter_append]
    · simp only [subscribeState, unsubscribeState, Emitter.onSub, Emitter.offSub,
        Emitter.deliveries, List.mem_map, List.mem_filter, List.filter_append,
        List.mem_append]
      rintro ⟨p, hp, hsnd⟩
      rcases hp with ⟨⟨_, hkeep⟩, hfst⟩ | ⟨⟨_, hkeep⟩, hfst⟩ <;>
      · simp at hkeep hfst
        rcases hkeep with hk | hk
        · exact hk hfst
        · exact hk hsnd
    · intro ch h2 hne
      simp only [subscribeState, unsubscribeState, Emitter.onSub, Emitter.offSub,
        Emitter.deliveries, List.mem_map, List.mem_filter, List.filter_append,
        List.mem_append]
      constructor
      · rintro ⟨p, hp, hsnd⟩
        rcases hp with ⟨⟨hpmem, _⟩, hch⟩ | ⟨⟨hpmem, _⟩, hch⟩
        · exact ⟨p, ⟨hpmem, hch⟩, hsnd⟩
        · exfalso
          have hps : p = (s, h) := by simpa using hpmem
          rw [hps] at hsnd
          exact hne hsnd.symm
      · rintro ⟨p, ⟨hpmem, hch⟩, hsnd⟩
        refine ⟨p, Or.inl ⟨⟨hpmem, ?_⟩, hch⟩, hsnd⟩
        simp
        exact Or.inr (fun hph => hne (hsnd.symm.trans hph))

/-- C8 witness: the amended theorem on the Scenario B config, whose two
member names `onIdle` and `onActive` are distinct; handler 5 subscribed
on channel `idle` and then unsubscribed is no longer delivered to. -/
theorem c8_per_state_subscriptions_witness :
    alookup (onMemberName "idle") (buildHandlers pendCfg) = some "idle"
    ∧ 5 ∉ Emitter.deliveries (unsubscribeState "idle" (subscribeState "idle" ⟨[]⟩ 5) 5) "idle" := by
  have H := c8_per_state_subscriptions pendCfg (by decide)
  exact ⟨H.2.1 "idle" (by decide), (H.2.2 ⟨[]⟩ "idle" 5).2.1⟩

/-! Claim C9. -/

/-- C9: the handle spreads the built-ins last, so even when the config
declares an action named `transition`, `getState`, `onEnter` or `onExit`,
the member of that name on the returned handle is the built-in machine
function, not the dispatch callable of the action; such an action is reachable
only through `transition(action, meta)`. -/
theorem c9_builtins_shadow {μ ε : Type} (cfg : Config μ ε)
    (hdecl : "transition" ∈ actionNames cfg ∨ "getState" ∈ actionNames cfg
      ∨ "onEnter" ∈ actionNames cfg ∨ "onExit" ∈ actionNames cfg) :
    alookup "transition" (handleMembers cfg) = some HandleMember.transitionBuiltin
    ∧ alookup "getState" (handleMembers cfg) = some HandleMember.getStateBuiltin
    ∧ alookup "onEnter" (handleMembers cfg) = some HandleMember.enterBuiltin
    ∧ alookup "onExit" (handleMembers cfg) = some HandleMember.exitBuiltin := by
  unfold handleMembers
  refine ⟨?_, ?_, ?_, ?_⟩ <;> simp [alookup_upsert]

/-- C9 witness: the config declaring the action `transition`: the handle
member `transition` is the built-in, not the dispatch callable. -/
theorem c9_builtins_shadow_witness :
    alookup "transition" (handleMembers shadowCfg) = some HandleMember.transitionBuiltin
    ∧ alookup "getState" (handleMembers shadowCfg) = some HandleMember.getStateBuiltin
    ∧ alookup "onEnter" (handleMembers shadowCfg) = some HandleMember.enterBuiltin
    ∧ alookup "onExit" (handleMembers shadowCfg) = some HandleMember.exitBuiltin :=
  c9_builtins_shadow shadowCfg (Or.inl (by decide))

/-! Claim C10. -/

/-- C10: for two state names that differ only in the capitalization of
their first character, the notifier builder derives the same member name
for both; the handle keys are duplicate-free, so there is a single
subscription entry point for the two states, and looking it up yields the
state whose key is enumerated last among those deriving that member name
(the later state wins; the earlier one has no member of its own). -/
theorem c10_capitalization_collision {μ ε : Type} (cfg : Config μ ε)
    (c d : Char) (cs : List Char) (s1 s2 : String)
    (hs1 : s1 = String.mk (c :: cs)) (hs2 : s2 = String.mk (d :: cs))
    (hcap : c.toUpper = d.toUpper)
    (h1 : s1 ∈ stateNames cfg) (h2 : s2 ∈ stateNames cfg) :
    onMemberName s1 = onMemberName s2
    ∧ ((buildHandlers cfg).map Prod.fst).Nodup
    ∧ s1 ∈ (stateNames cfg).filter (fun s => onMemberName s == onMemberName s1)
    ∧ s2 ∈ (stateNames cfg).filter (fun s => onMemberName s == onMemberName s1)
    ∧ alookup (onMemberName s1) (buildHandlers cfg) =
        ((stateNames cfg).filter (fun s => onMemberName s == onMemberName s1)).getLast? := by
  have hmn : onMemberName s1 = onMemberName s2 := by
    subst hs1 hs2
    show ("on" ++ String.mk (c.toUpper :: cs)) = ("on" ++ String.mk (d.toUpper :: cs))
    rw [hcap]
  refine ⟨hmn, nodup_keys_buildHandlers cfg, ?_, ?_, alookup_buildHandlers cfg _⟩
  · simp [List.mem_filter, h1]
  · simp [List.mem_filter, h2, hmn]

/-- C10 witness: the states `idle` and `Idle` of the concrete config:
both derive `onIdle`, and the single entry is wired to `Idle`, the state
enumerated later. -/
theorem c10_capitalization_collision_witness :
    onMemberName "idle" = onMemberName "Idle"
    ∧ alookup (onMemberName "idle") (buildHandlers capCfg) =
        ((stateNames capCfg).filter (fun s => onMemberName s == onMemberName "idle")).getLast?
    ∧ ((stateNames capCfg).filter (fun s => onMemberName s == onMemberName "idle")).getLast?
        = some "Idle" := by
  have H := c10_capitalization_collision capCfg 'i' 'I' ['d', 'l', 'e'] "idle" "Idle"
    rfl rfl (by decide) (by decide) (by decide)
  exact ⟨H.1, H.2.2.2.2, by decide⟩

end HollyFsm
